import Mathlib

set_option maxRecDepth 8000

/-!
Verification of the label-correction core of `src/animal/train.py`.

The development shallowly embeds the data structures and operations of the
training driver in `main` (src/animal/train.py):

* the prediction history buffer `output_record` (a 30 x N x C tensor,
  written per training batch at line 108),
* the validation score ledger `val_record` (length 30, written at line 125),
* the argsort-based top-10 epoch selection (line 132),
* the selected-epoch average `output_record[ind].mean(0)` (line 139),
* the per-epoch driver loop with warm-up epoch 40 (lines 87-143).

Real-valued tensors are embedded as functions into `ℝ` (or a generic linear
order where the operation is order-theoretic); epoch/slot/example/class
indices are `Nat`.  `np.argsort` is called with its default
`kind='quicksort'`, which numpy documents as not stable: the library
guarantees only a permutation of the slot indices along which the stored
values are nondecreasing, with the order among tied values an
implementation accident.  That guaranteed semantics is captured by the
predicate `valueSorted`; the deterministic `argsort`/`topK` used to embed
the driver loop is one conforming output (`argsort_valueSorted`) with ties
broken by ascending slot index.

Two pieces of the repository are not present under `src/` and are modelled
from the specification, as marked on their doc comments: the label
correction engine `utils.lrt_correction` (spec section 4.4) and the dataset
collaborator `animal_dataset.Animal10` (spec sections 3 and 6).
-/

/-- Retained-epoch depth of the two ring buffers (`30` at lines 79 and 81). -/
def bufferDepth : Nat := 30

/-- Number of classes (`num_class = 10` at line 63). -/
def numClass : Nat := 10

/-- Number of selected epochs (the `[-10:]` slice at line 132). -/
def numSelected : Nat := 10

/-- Warm-up epoch: correction runs for `epoch >= 40` (line 138). -/
def warmupEpoch : Nat := 40

/-- Batch size of the training loader (`batch_size = 128`, lines 38 and 55). -/
def batchSize : Nat := 128

/-- Total order on ledger slot indices underlying the embedding's
deterministic argsort instance: compare stored values, break ties by
ascending slot index.  This tie order is a determinization choice of the
embedding only — `np.argsort` with its default unstable quicksort
(line 132) does not guarantee it; the library's guaranteed semantics is
`valueSorted` below. -/
def argRel {α : Type} [LinearOrder α] (v : Nat → α) (i j : Nat) : Prop :=
  v i < v j ∨ (v i = v j ∧ i ≤ j)

instance argRelDecidable {α : Type} [LinearOrder α] (v : Nat → α) :
    DecidableRel (argRel v) :=
  fun i j => inferInstanceAs (Decidable (v i < v j ∨ (v i = v j ∧ i ≤ j)))

theorem argRel_total {α : Type} [LinearOrder α] (v : Nat → α) (i j : Nat) :
    argRel v i j ∨ argRel v j i := by
  rcases lt_trichotomy (v i) (v j) with h | h | h
  · exact Or.inl (Or.inl h)
  · rcases Nat.le_total i j with hij | hij
    · exact Or.inl (Or.inr ⟨h, hij⟩)
    · exact Or.inr (Or.inr ⟨h.symm, hij⟩)
  · exact Or.inr (Or.inl h)

theorem argRel_trans {α : Type} [LinearOrder α] (v : Nat → α) (i j k : Nat) :
    argRel v i j → argRel v j k → argRel v i k := by
  rintro (h₁ | ⟨h₁, h₁'⟩) (h₂ | ⟨h₂, h₂'⟩)
  · exact Or.inl (h₁.trans h₂)
  · exact Or.inl (h₂ ▸ h₁)
  · exact Or.inl (h₁ ▸ h₂)
  · exact Or.inr ⟨h₁.trans h₂, h₁'.trans h₂'⟩

instance argRelIsTotal {α : Type} [LinearOrder α] (v : Nat → α) :
    IsTotal Nat (argRel v) :=
  ⟨argRel_total v⟩

instance argRelIsTrans {α : Type} [LinearOrder α] (v : Nat → α) :
    IsTrans Nat (argRel v) :=
  ⟨fun i j k => argRel_trans v i j k⟩

/-- Deterministic instance of `np.argsort(val_record)` (line 132) used to
embed the driver loop: the permutation of the slot indices `0..29` along
which stored values are nondecreasing, with the embedding's ascending-index
tie order.  It is one output the unstable library sort may produce
(`argsort_valueSorted`); no property provable of the program may depend on
this tie choice — the driver-level theorems below are tie-robust. -/
def argsort {α : Type} [LinearOrder α] (v : Nat → α) : List Nat :=
  List.insertionSort (argRel v) (List.range bufferDepth)

/-- The `[-k:]` slice applied by line 132 to an argsort output: the last `k`
entries. -/
def lastK (l : List Nat) (k : Nat) : List Nat :=
  l.drop (l.length - k)

/-- Embedding of `np.argsort(val_record)[-k:]` (line 132 uses `k = 10`)
built on the deterministic argsort instance. -/
def topK {α : Type} [LinearOrder α] (v : Nat → α) (k : Nat) : List Nat :=
  (argsort v).drop ((argsort v).length - k)

/-- Guaranteed semantics of `np.argsort(val_record)` under the default
`kind='quicksort'` (line 132): numpy documents only that the result is a
permutation of the slot indices `0..29` along which the stored values are
nondecreasing; the relative order of tied values is unspecified (the
default introsort is not stable).  Any list the library call may return
satisfies this predicate. -/
def valueSorted {α : Type} [LinearOrder α] (v : Nat → α) (l : List Nat) : Prop :=
  List.Perm l (List.range bufferDepth) ∧ List.Sorted (fun i j => v i ≤ v j) l

theorem topK_eq_lastK {α : Type} [LinearOrder α] (v : Nat → α) (k : Nat) :
    topK v k = lastK (argsort v) k := rfl

theorem argsort_perm {α : Type} [LinearOrder α] (v : Nat → α) :
    List.Perm (argsort v) (List.range bufferDepth) :=
  List.perm_insertionSort (argRel v) (List.range bufferDepth)

theorem argsort_length {α : Type} [LinearOrder α] (v : Nat → α) :
    (argsort v).length = bufferDepth :=
  (argsort_perm v).length_eq.trans (List.length_range bufferDepth)

theorem argsort_nodup {α : Type} [LinearOrder α] (v : Nat → α) :
    (argsort v).Nodup :=
  ((argsort_perm v).nodup_iff).mpr (List.nodup_range bufferDepth)

theorem argsort_mem {α : Type} [LinearOrder α] (v : Nat → α) (i : Nat) :
    i ∈ argsort v ↔ i < bufferDepth := by
  rw [(argsort_perm v).mem_iff, List.mem_range]

theorem argsort_sorted {α : Type} [LinearOrder α] (v : Nat → α) :
    List.Sorted (argRel v) (argsort v) :=
  List.sorted_insertionSort (argRel v) (List.range bufferDepth)

theorem topK_sublist {α : Type} [LinearOrder α] (v : Nat → α) (k : Nat) :
    List.Sublist (topK v k) (argsort v) :=
  List.drop_sublist ((argsort v).length - k) (argsort v)

theorem topK_length {α : Type} [LinearOrder α] (v : Nat → α) (k : Nat)
    (hk : k ≤ bufferDepth) : (topK v k).length = k := by
  rw [topK, List.length_drop, argsort_length, Nat.sub_sub_self hk]

theorem topK_nodup {α : Type} [LinearOrder α] (v : Nat → α) (k : Nat) :
    (topK v k).Nodup :=
  (argsort_nodup v).sublist (topK_sublist v k)

theorem topK_mem_lt {α : Type} [LinearOrder α] (v : Nat → α) (k : Nat)
    (i : Nat) (hi : i ∈ topK v k) : i < bufferDepth :=
  (argsort_mem v i).mp ((topK_sublist v k).subset hi)

/-- The embedding's deterministic argsort is one output conforming to the
guaranteed semantics of the library call at line 132. -/
theorem argsort_valueSorted {α : Type} [LinearOrder α] (v : Nat → α) :
    valueSorted v (argsort v) := by
  refine ⟨argsort_perm v, List.Pairwise.imp ?_ (argsort_sorted v)⟩
  intro a b hab
  rcases hab with h | ⟨h, _⟩
  · exact le_of_lt h
  · exact le_of_eq h

theorem lastK_sublist (l : List Nat) (k : Nat) : List.Sublist (lastK l k) l :=
  List.drop_sublist (l.length - k) l

theorem valueSorted_length {α : Type} [LinearOrder α] (v : Nat → α)
    (l : List Nat) (hl : valueSorted v l) : l.length = bufferDepth :=
  hl.1.length_eq.trans (List.length_range bufferDepth)

theorem valueSorted_nodup {α : Type} [LinearOrder α] (v : Nat → α)
    (l : List Nat) (hl : valueSorted v l) : l.Nodup :=
  hl.1.nodup_iff.mpr (List.nodup_range bufferDepth)

theorem valueSorted_mem {α : Type} [LinearOrder α] (v : Nat → α)
    (l : List Nat) (hl : valueSorted v l) (i : Nat) :
    i ∈ l ↔ i < bufferDepth := by
  rw [hl.1.mem_iff, List.mem_range]

theorem lastK_length {α : Type} [LinearOrder α] (v : Nat → α) (l : List Nat)
    (k : Nat) (hk : k ≤ bufferDepth) (hl : valueSorted v l) :
    (lastK l k).length = k := by
  rw [lastK, List.length_drop, valueSorted_length v l hl, Nat.sub_sub_self hk]

theorem lastK_nodup {α : Type} [LinearOrder α] (v : Nat → α) (l : List Nat)
    (k : Nat) (hl : valueSorted v l) : (lastK l k).Nodup :=
  (valueSorted_nodup v l hl).sublist (lastK_sublist l k)

theorem lastK_mem_lt {α : Type} [LinearOrder α] (v : Nat → α) (l : List Nat)
    (k : Nat) (hl : valueSorted v l) (i : Nat) (hi : i ∈ lastK l k) :
    i < bufferDepth :=
  (valueSorted_mem v l hl i).mp ((lastK_sublist l k).subset hi)

theorem lastK_sorted {α : Type} [LinearOrder α] (v : Nat → α) (l : List Nat)
    (k : Nat) (hl : valueSorted v l) :
    List.Sorted (fun i j => v i ≤ v j) (lastK l k) :=
  List.Pairwise.sublist (lastK_sublist l k) hl.2

theorem lastK_maximal {α : Type} [LinearOrder α] (v : Nat → α) (l : List Nat)
    (k : Nat) (hl : valueSorted v l) (i : Nat) (hi : i ∈ lastK l k)
    (j : Nat) (hj : j < bufferDepth) (hjn : j ∉ lastK l k) : v j ≤ v i := by
  have hsplit := List.take_append_drop (l.length - k) l
  have hsorted := hl.2
  rw [← hsplit] at hsorted
  have hj' : j ∈ l := (valueSorted_mem v l hl j).mpr hj
  rw [← hsplit, List.mem_append] at hj'
  have hjtake : j ∈ l.take (l.length - k) := by
    rcases hj' with h | h
    · exact h
    · exact absurd h hjn
  exact (List.pairwise_append.mp hsorted).2.2 j hjtake i hi

theorem lastK_ne_of_split {α : Type} [LinearOrder α] (v : Nat → α)
    (l : List Nat) (k : Nat) (hl : valueSorted v l) (i : Nat)
    (hi : i ∈ lastK l k) (j : Nat) (hj : j < bufferDepth)
    (hjn : j ∉ lastK l k) : j ≠ i := by
  have hsplit := List.take_append_drop (l.length - k) l
  have hnd := valueSorted_nodup v l hl
  rw [← hsplit] at hnd
  have hj' : j ∈ l := (valueSorted_mem v l hl j).mpr hj
  rw [← hsplit, List.mem_append] at hj'
  have hjtake : j ∈ l.take (l.length - k) := by
    rcases hj' with h | h
    · exact h
    · exact absurd h hjn
  intro hji
  exact (List.disjoint_of_nodup_append hnd) hjtake (hji ▸ hi)

/-- C2 (amended).  For every ledger state and every `k ≤ 30`, the driver's
selection `np.argsort(val_record)[-k:]` (line 132), under the semantics the
library actually guarantees for the default unstable quicksort — any
permutation of the 30 slot indices along which the stored values are
nondecreasing — returns `k` distinct slot indices in nondecreasing order of
stored value, each holding a value at least that of every non-selected
slot; the order among tied values is unspecified.  Over a ledger with
all-distinct values it returns exactly the `k` highest-value slots,
regardless of insertion order and of which conforming permutation the sort
produces. -/
theorem lastK_selects_highest {α : Type} [LinearOrder α] (v : Nat → α)
    (k : Nat) (hk : k ≤ bufferDepth) (l : List Nat) (hl : valueSorted v l) :
    (lastK l k).length = k ∧
    (lastK l k).Nodup ∧
    (∀ i ∈ lastK l k, i < bufferDepth) ∧
    List.Sorted (fun i j => v i ≤ v j) (lastK l k) ∧
    (∀ i ∈ lastK l k, ∀ j, j < bufferDepth → j ∉ lastK l k → v j ≤ v i) ∧
    ((∀ i, i < bufferDepth → ∀ j, j < bufferDepth → i ≠ j → v i ≠ v j) →
      ∀ i ∈ lastK l k, ∀ j, j < bufferDepth → j ∉ lastK l k → v j < v i) := by
  refine ⟨lastK_length v l k hk hl, lastK_nodup v l k hl,
    fun i hi => lastK_mem_lt v l k hl i hi, lastK_sorted v l k hl,
    fun i hi j hj hjn => lastK_maximal v l k hl i hi j hj hjn, ?_⟩
  intro hdist i hi j hj hjn
  have hle := lastK_maximal v l k hl i hi j hj hjn
  have hne : j ≠ i := lastK_ne_of_split v l k hl i hi j hj hjn
  exact lt_of_le_of_ne hle
    (hdist j hj i (lastK_mem_lt v l k hl i hi) hne)

theorem pairwise_of_rel_everywhere (R : Nat → Nat → Prop)
    (h : ∀ i j, R i j) : ∀ l : List Nat, List.Pairwise R l := by
  intro l
  induction l with
  | nil => exact List.Pairwise.nil
  | cons a l ih => exact List.Pairwise.cons (fun b _ => h a b) ih

/-- Counterexample to C2 as stated: the zero-initialized ledger (its actual
state at the start of every run, line 81) has all 30 slots tied, and the
reversed index list `[29, ..., 1, 0]` is a conforming output of the
unstable value sort on it; the last-2 selection of that output is `[1, 0]`,
which is neither sorted by the claimed ascending-index tie-break relation
nor tie-broken so that every non-selected slot is related below every
selected one — so the claimed stable-sort tie semantics is not a
consequence of what the code guarantees. -/
theorem argsort_tie_break_not_guaranteed :
    valueSorted (fun _ => (0 : ℚ)) (List.range bufferDepth).reverse ∧
    lastK ((List.range bufferDepth).reverse) 2 = [1, 0] ∧
    ¬ List.Sorted (argRel (fun _ => (0 : ℚ)))
        (lastK ((List.range bufferDepth).reverse) 2) ∧
    ¬ (∀ i ∈ lastK ((List.range bufferDepth).reverse) 2, ∀ j,
        j < bufferDepth → j ∉ lastK ((List.range bufferDepth).reverse) 2 →
        argRel (fun _ => (0 : ℚ)) j i) := by
  have hlk : lastK ((List.range bufferDepth).reverse) 2 = [1, 0] := by decide
  refine ⟨⟨List.reverse_perm _, ?_⟩, hlk, ?_, ?_⟩
  · exact pairwise_of_rel_everywhere _ (fun _ _ => le_refl (0 : ℚ)) _
  · rw [hlk]
    intro hs
    have h10 : argRel (fun _ => (0 : ℚ)) 1 0 :=
      (List.sorted_cons.mp hs).1 0 (List.mem_singleton.mpr rfl)
    rcases h10 with h | ⟨_, h⟩
    · exact absurd h (lt_irrefl _)
    · omega
  · intro h
    have h290 : argRel (fun _ => (0 : ℚ)) 29 0 :=
      h 0 (by rw [hlk]; decide) 29 (by decide) (by rw [hlk]; decide)
    rcases h290 with h' | ⟨_, h'⟩
    · exact absurd h' (lt_irrefl _)
    · omega

/-- Witness for C2 (amended): for the all-distinct ledger `v j = j` with
`k = 2`, the hypothesis `k ≤ 30` holds, the embedding's deterministic
argsort is a concrete conforming permutation, and the theorem yields that
exactly two slots are selected. -/
theorem lastK_selects_highest_witness :
    2 ≤ bufferDepth ∧
    valueSorted (fun j => (j : ℚ)) (argsort (fun j => (j : ℚ))) ∧
    (lastK (argsort (fun j => (j : ℚ))) 2).length = 2 :=
  ⟨by decide, argsort_valueSorted (fun j => (j : ℚ)),
    (lastK_selects_highest (fun j => (j : ℚ)) 2 (by decide) _
      (argsort_valueSorted (fun j => (j : ℚ)))).1⟩

/-- Softmax along the class axis, as applied to a raw score row at line 108
(`F.softmax(outputs.detach().cpu(), dim = 1)`): entry `c` is
`exp(z c)` over the sum of `exp(z j)` for the `numClass` classes. -/
noncomputable def softmax (z : Nat → ℝ) (c : Nat) : ℝ :=
  Real.exp (z c) / Finset.sum (Finset.range numClass) (fun j => Real.exp (z j))

theorem softmax_denom_pos (z : Nat → ℝ) :
    (0 : ℝ) < Finset.sum (Finset.range numClass) (fun j => Real.exp (z j)) := by
  apply Finset.sum_pos
  · intro i _
    exact Real.exp_pos (z i)
  · exact ⟨0, by simp [numClass]⟩

theorem softmax_nonneg (z : Nat → ℝ) (c : Nat) : 0 ≤ softmax z c :=
  div_nonneg (Real.exp_pos (z c)).le (softmax_denom_pos z).le

theorem softmax_le_one (z : Nat → ℝ) (c : Nat) (hc : c < numClass) :
    softmax z c ≤ 1 := by
  rw [softmax, div_le_one (softmax_denom_pos z)]
  apply Finset.single_le_sum (f := fun j => Real.exp (z j))
  · intro i _
    exact (Real.exp_pos (z i)).le
  · simpa using hc

theorem softmax_sum_one (z : Nat → ℝ) :
    Finset.sum (Finset.range numClass) (fun c => softmax z c) = 1 := by
  simp only [softmax]
  rw [← Finset.sum_div]
  exact div_self (ne_of_gt (softmax_denom_pos z))

/-- One training mini-batch as seen at line 94: the dataset indices of its
examples and the raw model scores produced for them (example index to class
index to score). -/
structure Batch where
  idxs : List Nat
  scores : Nat → Nat → ℝ

/-- Effect of line 108 for a single batch:
`output_record[epoch % 30, indices] = F.softmax(outputs, dim = 1)` writes the
softmax of the batch's score rows into row `slot` at the batch's example
columns, leaving everything else unchanged. -/
noncomputable def recordBatch (buf : Nat → Nat → Nat → ℝ) (slot : Nat)
    (b : Batch) : Nat → Nat → Nat → ℝ :=
  fun s i c => if s = slot ∧ i ∈ b.idxs then softmax (b.scores i) c else buf s i c

/-- Training pass of epoch `e` as it affects `output_record` (lines 94-108):
each batch is written into slot `e % 30`; a batch of size 1 is skipped by
the guard at lines 95-96. -/
noncomputable def trainEpoch (buf : Nat → Nat → Nat → ℝ) (e : Nat)
    (bs : List Batch) : Nat → Nat → Nat → ℝ :=
  bs.foldl (fun B b => if b.idxs.length = 1 then B
    else recordBatch B (e % bufferDepth) b) buf

/-- Example `i` appears in one of the batches. -/
def coveredBy (bs : List Batch) (i : Nat) : Prop :=
  ∃ b ∈ bs, i ∈ b.idxs

instance coveredByDecidable (bs : List Batch) (i : Nat) :
    Decidable (coveredBy bs i) :=
  inferInstanceAs (Decidable (∃ b ∈ bs, i ∈ b.idxs))

/-- Shape of the batch lists produced by the training loader (line 55:
`shuffle = True, drop_last = True` over a dataset of `N` examples with
`batch_size = 128`): every batch has exactly 128 distinct example indices,
all batches are disjoint, all indices are in range, and the batches cover
`128 * (N / 128)` examples in total — the final `N mod 128` examples of the
shuffled order are dropped. -/
def loaderValid (N : Nat) (bs : List Batch) : Prop :=
  (∀ b ∈ bs, b.idxs.length = batchSize) ∧
  (bs.map Batch.idxs).flatten.Nodup ∧
  (∀ b ∈ bs, ∀ i ∈ b.idxs, i < N) ∧
  (bs.map Batch.idxs).flatten.length = batchSize * (N / batchSize)

instance loaderValidDecidable (N : Nat) (bs : List Batch) :
    Decidable (loaderValid N bs) := by
  unfold loaderValid
  infer_instance

theorem recordBatch_ne_slot (buf : Nat → Nat → Nat → ℝ) (slot : Nat)
    (b : Batch) (s i c : Nat) (h : s ≠ slot) :
    recordBatch buf slot b s i c = buf s i c := by
  rw [recordBatch, if_neg]
  rintro ⟨h1, _⟩
  exact h h1

theorem recordBatch_not_mem (buf : Nat → Nat → Nat → ℝ) (slot : Nat)
    (b : Batch) (s i c : Nat) (h : i ∉ b.idxs) :
    recordBatch buf slot b s i c = buf s i c := by
  rw [recordBatch, if_neg]
  rintro ⟨_, h2⟩
  exact h h2

theorem recordBatch_mem (buf : Nat → Nat → Nat → ℝ) (slot : Nat)
    (b : Batch) (i c : Nat) (h : i ∈ b.idxs) :
    recordBatch buf slot b slot i c = softmax (b.scores i) c := by
  rw [recordBatch, if_pos ⟨rfl, h⟩]

theorem trainEpoch_nil (buf : Nat → Nat → Nat → ℝ) (e : Nat) :
    trainEpoch buf e [] = buf := rfl

theorem trainEpoch_cons (buf : Nat → Nat → Nat → ℝ) (e : Nat) (b : Batch)
    (bs : List Batch) :
    trainEpoch buf e (b :: bs) =
      trainEpoch (if b.idxs.length = 1 then buf
        else recordBatch buf (e % bufferDepth) b) e bs := by
  rw [trainEpoch, trainEpoch, List.foldl_cons]

theorem trainEpoch_frame (e s i c : Nat) (hs : s ≠ e % bufferDepth) :
    ∀ (bs : List Batch) (buf : Nat → Nat → Nat → ℝ),
      trainEpoch buf e bs s i c = buf s i c := by
  intro bs
  induction bs with
  | nil => intro buf; rfl
  | cons b bs ih =>
    intro buf
    rw [trainEpoch_cons]
    by_cases h1 : b.idxs.length = 1
    · rw [if_pos h1, ih buf]
    · rw [if_neg h1, ih, recordBatch_ne_slot _ _ _ _ _ _ hs]

theorem trainEpoch_not_covered (e i : Nat) :
    ∀ (bs : List Batch) (buf : Nat → Nat → Nat → ℝ) (s c : Nat),
      ¬ coveredBy bs i → trainEpoch buf e bs s i c = buf s i c := by
  intro bs
  induction bs with
  | nil => intro buf s c _; rfl
  | cons b bs ih =>
    intro buf s c hnc
    have hb : i ∉ b.idxs := by
      intro h
      exact hnc ⟨b, List.mem_cons_self b bs, h⟩
    have hbs : ¬ coveredBy bs i := by
      rintro ⟨b', hb', hi'⟩
      exact hnc ⟨b', List.mem_cons_of_mem b hb', hi'⟩
    rw [trainEpoch_cons]
    by_cases h1 : b.idxs.length = 1
    · rw [if_pos h1, ih buf s c hbs]
    · rw [if_neg h1, ih _ s c hbs, recordBatch_not_mem _ _ _ _ _ _ hb]

theorem coveredBy_mem_flatten (bs : List Batch) (i : Nat)
    (h : coveredBy bs i) : i ∈ (bs.map Batch.idxs).flatten := by
  rcases h with ⟨b, hb, hi⟩
  exact List.mem_flatten.mpr ⟨b.idxs, List.mem_map_of_mem Batch.idxs hb, hi⟩

theorem trainEpoch_covered (e i c : Nat) :
    ∀ (bs : List Batch) (buf : Nat → Nat → Nat → ℝ) (b : Batch),
      (bs.map Batch.idxs).flatten.Nodup → b ∈ bs → i ∈ b.idxs →
      b.idxs.length ≠ 1 →
      trainEpoch buf e bs (e % bufferDepth) i c = softmax (b.scores i) c := by
  intro bs
  induction bs with
  | nil => intro buf b _ hb; exact absurd hb (List.not_mem_nil b)
  | cons b₀ bs ih =>
    intro buf b hnd hb hi hlen
    have hnd' : (b₀.idxs ++ (bs.map Batch.idxs).flatten).Nodup := by
      rw [← List.flatten_cons, ← List.map_cons]
      exact hnd
    rcases List.mem_cons.mp hb with hb0 | hbtl
    · subst hb0
      have hrest : ¬ coveredBy bs i := by
        intro hcov
        exact (List.disjoint_of_nodup_append hnd') hi
          (coveredBy_mem_flatten bs i hcov)
      rw [trainEpoch_cons, if_neg hlen,
        trainEpoch_not_covered e i bs _ _ c hrest, recordBatch_mem _ _ _ _ _ hi]
    · rw [trainEpoch_cons]
      have hndtl : (bs.map Batch.idxs).flatten.Nodup :=
        ((List.nodup_append.mp hnd').2).1
      by_cases h1 : b₀.idxs.length = 1
      · rw [if_pos h1]
        exact ih buf b hndtl hbtl hi hlen
      · rw [if_neg h1]
        exact ih _ b hndtl hbtl hi hlen

/-- Effect of line 125 (`val_record[epoch % 30] = val_acc`): write the
validation accuracy of epoch `e` into ledger slot `e % 30`. -/
def recordAcc (vr : Nat → ℝ) (e : Nat) (a : ℝ) : Nat → ℝ :=
  fun j => if j = e % bufferDepth then a else vr j

/-- C3 (amended).  After the training pass of epoch `e` over a batch list
produced by the loader (`shuffle = True, drop_last = True`, line 55), buffer
row `e mod 30` holds, for every example `i` that appears in one of the
epoch's batches, the softmax of the scores produced for `i` in its batch —
a vector with entries in `[0, 1]` summing to `1` over the `numClass`
classes; examples that appear in no batch (the `N mod 128` examples dropped
by `drop_last`) keep their previous buffer contents in every slot. -/
theorem epoch_record_covered_rows (N : Nat) (buf : Nat → Nat → Nat → ℝ)
    (e : Nat) (bs : List Batch) (hv : loaderValid N bs) :
    (∀ b ∈ bs, ∀ i ∈ b.idxs,
      (∀ c, trainEpoch buf e bs (e % bufferDepth) i c = softmax (b.scores i) c) ∧
      (∀ c, 0 ≤ trainEpoch buf e bs (e % bufferDepth) i c) ∧
      (∀ c, c < numClass → trainEpoch buf e bs (e % bufferDepth) i c ≤ 1) ∧
      Finset.sum (Finset.range numClass)
        (fun c => trainEpoch buf e bs (e % bufferDepth) i c) = 1) ∧
    (∀ i, ¬ coveredBy bs i → ∀ s c, trainEpoch buf e bs s i c = buf s i c) := by
  constructor
  · intro b hb i hi
    have hlen : b.idxs.length ≠ 1 := by
      rw [hv.1 b hb]
      decide
    have hval : ∀ c, trainEpoch buf e bs (e % bufferDepth) i c
        = softmax (b.scores i) c :=
      fun c => trainEpoch_covered e i c bs buf b hv.2.1 hb hi hlen
    refine ⟨hval, ?_, ?_, ?_⟩
    · intro c
      rw [hval c]
      exact softmax_nonneg (b.scores i) c
    · intro c hc
      rw [hval c]
      exact softmax_le_one (b.scores i) c hc
    · rw [Finset.sum_congr rfl (fun c _ => hval c)]
      exact softmax_sum_one (b.scores i)
  · intro i hnc s c
    exact trainEpoch_not_covered e i bs buf s c hnc

/-- Initial prediction history buffer (line 79: `torch.zeros`). -/
def bufZero : Nat → Nat → Nat → ℝ := fun _ _ _ => 0

/-- Initial validation ledger (line 81: `torch.zeros`). -/
def vrZero : Nat → ℝ := fun _ => 0

/-- Concrete loader-valid epoch for a 129-example dataset: one full batch
holding examples `0..127`; example `128` is dropped by `drop_last`. -/
def batchA : Batch :=
  ⟨List.range 128, fun _ _ => 0⟩

/-- Concrete loader-valid epoch for a 129-example dataset under a different
shuffle: one full batch holding examples `1..128`; example `0` is dropped. -/
def batchB : Batch :=
  ⟨(List.range 128).map (fun i => i + 1), fun _ _ => 0⟩

/-- Witness for C3 (amended): the single-batch epoch `[batchA]` is
loader-valid for `N = 129`, and applying the theorem to the covered example
`5` evaluates its buffer row entry to the recorded softmax. -/
theorem epoch_record_covered_rows_witness :
    loaderValid 129 [batchA] ∧
    trainEpoch bufZero 0 [batchA] (0 % bufferDepth) 5 0
      = softmax (batchA.scores 5) 0 :=
  ⟨by decide,
    ((epoch_record_covered_rows 129 bufZero 0 [batchA] (by decide)).1 batchA
      (List.mem_singleton.mpr rfl) 5 (by decide)).1 0⟩

/-- Counterexample to C3 as stated: for the 129-example dataset the
loader-valid epoch `[batchA]` covers only examples `0..127`, so after the
training pass of epoch `0` the buffer row `0 mod 30` does not hold, for
every one of the 129 examples, that example's softmax vector produced
during the epoch — example `128` was never forwarded (dropped by
`drop_last`, line 55) and its row still holds the initial zeros. -/
theorem epoch_record_not_all_examples :
    loaderValid 129 [batchA] ∧
    ¬ (∀ i, i < 129 → ∃ b ∈ [batchA], i ∈ b.idxs ∧
        ∀ c, trainEpoch bufZero 0 [batchA] (0 % bufferDepth) i c
          = softmax (b.scores i) c) := by
  refine ⟨by decide, fun h => ?_⟩
  rcases h 128 (by decide) with ⟨b, hb, hmem, _⟩
  rw [List.mem_singleton] at hb
  subst hb
  exact absurd hmem (by decide)

/-- C6 (amended).  Recording epoch `e` (buffer write at line 108, ledger
write at line 125) touches only buffer row `e mod 30` and ledger slot
`e mod 30`, leaving every other slot of both unchanged; after writing epoch
`e` and then epoch `e + 30`, the shared ledger slot holds epoch `e + 30`'s
accuracy, and the shared buffer row holds epoch `e + 30`'s softmax data at
every example index epoch `e + 30` wrote, while example indices not covered
by epoch `e + 30`'s batches keep whatever epoch `e` left there — so epoch
`e`'s data is fully destroyed only where epoch `e + 30`'s write covers it. -/
theorem record_frame_cyclic_overwrite (buf : Nat → Nat → Nat → ℝ)
    (vr : Nat → ℝ) (e : Nat) (bs₁ bs₂ : List Batch) (a₁ a₂ : ℝ) :
    (∀ s, s ≠ e % bufferDepth → ∀ i c, trainEpoch buf e bs₁ s i c = buf s i c) ∧
    (∀ j, j ≠ e % bufferDepth → recordAcc vr e a₁ j = vr j) ∧
    recordAcc (recordAcc vr e a₁) (e + bufferDepth) a₂ (e % bufferDepth) = a₂ ∧
    ((bs₂.map Batch.idxs).flatten.Nodup →
      ∀ b ∈ bs₂, ∀ i ∈ b.idxs, b.idxs.length ≠ 1 → ∀ c,
        trainEpoch (trainEpoch buf e bs₁) (e + bufferDepth) bs₂
          (e % bufferDepth) i c = softmax (b.scores i) c) ∧
    (∀ i, ¬ coveredBy bs₂ i → ∀ c,
        trainEpoch (trainEpoch buf e bs₁) (e + bufferDepth) bs₂
          (e % bufferDepth) i c = trainEpoch buf e bs₁ (e % bufferDepth) i c) := by
  have hmod : (e + bufferDepth) % bufferDepth = e % bufferDepth :=
    Nat.add_mod_right e bufferDepth
  refine ⟨?_, ?_, ?_, ?_, ?_⟩
  · intro s hs i c
    exact trainEpoch_frame e s i c hs bs₁ buf
  · intro j hj
    rw [recordAcc, if_neg hj]
  · rw [recordAcc, hmod, if_pos rfl]
  · intro hnd b hb i hi hlen c
    rw [← hmod]
    exact trainEpoch_covered (e + bufferDepth) i c bs₂ _ b hnd hb hi hlen
  · intro i hnc c
    exact trainEpoch_not_covered (e + bufferDepth) i bs₂ _ _ c hnc

/-- Witness for C6 (amended): with epoch `0` writing batch `0..127` and
epoch `30` writing batch `1..128` (both loader-valid shuffles of the same
129-example dataset), the theorem's hypotheses hold concretely and example
`1`, covered by epoch `30`, reads epoch `30`'s softmax data. -/
theorem record_frame_cyclic_overwrite_witness :
    (([batchB].map Batch.idxs).flatten.Nodup) ∧
    trainEpoch (trainEpoch bufZero 0 [batchA]) (0 + bufferDepth) [batchB]
      (0 % bufferDepth) 1 0 = softmax (batchB.scores 1) 0 :=
  ⟨by decide,
    (record_frame_cyclic_overwrite bufZero vrZero 0 [batchA] [batchB] 0 0).2.2.2.1
      (by decide) batchB (List.mem_singleton.mpr rfl) 1 (by decide)
      (by decide) 0⟩

/-- Counterexample to C6 as stated: writing epoch `0` (loader-valid batch
list `[batchA]`, covering examples `0..127`) and then epoch `30`
(loader-valid `[batchB]`, covering `1..128`) does not leave only epoch
`30`'s data readable at slot `0 mod 30`: example `0` was written by epoch
`0` but not by epoch `30`, so its row entry does not come from epoch `30` —
epoch `0`'s data survives there. -/
theorem cyclic_overwrite_not_total :
    loaderValid 129 [batchA] ∧ loaderValid 129 [batchB] ∧
    coveredBy [batchA] 0 ∧
    ¬ (∀ i, coveredBy [batchA] i ∨ coveredBy [batchB] i →
        ∃ b ∈ [batchB], i ∈ b.idxs ∧
          ∀ c, trainEpoch (trainEpoch bufZero 0 [batchA]) (0 + bufferDepth)
            [batchB] (0 % bufferDepth) i c = softmax (b.scores i) c) := by
  refine ⟨by decide, by decide, by decide, fun h => ?_⟩
  rcases h 0 (Or.inl (by decide)) with ⟨b, hb, hmem, _⟩
  rw [List.mem_singleton] at hb
  subst hb
  exact absurd hmem (by decide)

/-- First index attaining the maximum of `f` over the list (first occurrence
wins on ties); `0` on the empty list. -/
def argmaxList {α : Type} [LinearOrder α] (f : Nat → α) : List Nat → Nat
  | [] => 0
  | c :: cs => cs.foldl (fun best x => if f best < f x then x else best) c

theorem argmax_foldl_mem {α : Type} [LinearOrder α] (f : Nat → α) :
    ∀ (cs : List Nat) (a : Nat),
      cs.foldl (fun best x => if f best < f x then x else best) a = a ∨
      cs.foldl (fun best x => if f best < f x then x else best) a ∈ cs := by
  intro cs
  induction cs with
  | nil => intro a; exact Or.inl rfl
  | cons x cs ih =>
    intro a
    rw [List.foldl_cons]
    rcases ih (if f a < f x then x else a) with h | h
    · rw [h]
      by_cases hc : f a < f x
      · rw [if_pos hc]
        exact Or.inr (List.mem_cons_self x cs)
      · rw [if_neg hc]
        exact Or.inl rfl
    · exact Or.inr (List.mem_cons_of_mem x h)

theorem argmax_foldl_ge {α : Type} [LinearOrder α] (f : Nat → α) :
    ∀ (cs : List Nat) (a : Nat),
      f a ≤ f (cs.foldl (fun best x => if f best < f x then x else best) a) ∧
      ∀ c ∈ cs,
        f c ≤ f (cs.foldl (fun best x => if f best < f x then x else best) a) := by
  intro cs
  induction cs with
  | nil => intro a; exact ⟨le_refl _, fun c hc => absurd hc (List.not_mem_nil c)⟩
  | cons x cs ih =>
    intro a
    rw [List.foldl_cons]
    have ha' : f a ≤ f (if f a < f x then x else a) := by
      by_cases hc : f a < f x
      · rw [if_pos hc]; exact hc.le
      · rw [if_neg hc]
    have hx' : f x ≤ f (if f a < f x then x else a) := by
      by_cases hc : f a < f x
      · rw [if_pos hc]
      · rw [if_neg hc]; exact not_lt.mp hc
    refine ⟨ha'.trans (ih _).1, fun c hc => ?_⟩
    rcases List.mem_cons.mp hc with hcx | hctl
    · subst hcx
      exact hx'.trans (ih _).1
    · exact (ih _).2 c hctl

theorem argmaxList_mem {α : Type} [LinearOrder α] (f : Nat → α)
    (l : List Nat) (hl : l ≠ []) : argmaxList f l ∈ l := by
  cases l with
  | nil => exact absurd rfl hl
  | cons c cs =>
    rw [argmaxList]
    rcases argmax_foldl_mem f cs c with h | h
    · rw [h]; exact List.mem_cons_self c cs
    · exact List.mem_cons_of_mem c h

theorem argmaxList_ge {α : Type} [LinearOrder α] (f : Nat → α)
    (l : List Nat) (c : Nat) (hc : c ∈ l) : f c ≤ f (argmaxList f l) := by
  cases l with
  | nil => exact absurd hc (List.not_mem_nil c)
  | cons x cs =>
    rw [argmaxList]
    rcases List.mem_cons.mp hc with hcx | hctl
    · exact hcx ▸ (argmax_foldl_ge f cs x).1
    · exact (argmax_foldl_ge f cs x).2 c hctl

/-- Class indices other than `a`: the candidate set of the engine's
`best_other` argmax. -/
def otherClasses (a : Nat) : List Nat :=
  (List.range numClass).filter (fun c => c ≠ a)

theorem otherClasses_ne_nil (a : Nat) : otherClasses a ≠ [] := by
  by_cases ha : a = 0
  · subst ha
    intro h
    have : 1 ∈ otherClasses 0 := by decide
    rw [h] at this
    exact List.not_mem_nil 1 this
  · intro h
    have : 0 ∈ otherClasses a := by
      rw [otherClasses, List.mem_filter]
      refine ⟨by decide, ?_⟩
      simpa using fun h0 => ha h0.symm
    rw [h] at this
    exact List.not_mem_nil 0 this

theorem mem_otherClasses (a c : Nat) :
    c ∈ otherClasses a ↔ c < numClass ∧ c ≠ a := by
  rw [otherClasses, List.mem_filter, List.mem_range]
  simp

/-- Modelled from the spec: the `best_other` class of spec section 4.4 step 2
(`utils.lrt_correction` is not under `src/`): the class `c ≠ assigned`
maximizing `avg_probs[i, c]`, first such class on ties. -/
def bestOther {α : Type} [LinearOrder α] (avg : Nat → Nat → α)
    (i assigned : Nat) : Nat :=
  argmaxList (fun c => avg i c) (otherClasses assigned)

/-- Modelled from the spec: the Label Correction Engine `utils.lrt_correction`
(called at line 140 of src/animal/train.py but not under `src/`), following
spec section 4.4 literally.  Per example `i` independently: with
`assigned = original_labels[i]`,
`best_other = argmax over c ≠ assigned of avg_probs[i, c]` and
`margin = avg_probs[i, best_other] - avg_probs[i, assigned]`, the output
label is `best_other` when `margin > current_threshold` and `assigned`
otherwise; the returned threshold is
`min(current_threshold + threshold_increment, 1.0)`. -/
def lrt_correction {α : Type} [LinearOrderedField α] (labels : Nat → Nat)
    (avg : Nat → Nat → α) (thd inc : α) : (Nat → Nat) × α :=
  (fun i =>
    if thd < avg i (bestOther avg i (labels i)) - avg i (labels i) then
      bestOther avg i (labels i)
    else labels i,
   min (thd + inc) 1)

/-- C5.  For every example `i`, independently of all other examples, the
engine's output label is `best_other` (the argmax of `avg_probs[i, ·]` over
classes other than the assigned one — a valid class index distinct from the
assigned label, whose probability is maximal among all such classes) when
`margin > current_threshold`, and the original label otherwise — never any
third class value; and the decision for `i` depends only on row `i` of the
inputs. -/
theorem lrt_per_example_rule {α : Type} [LinearOrderedField α]
    (labels : Nat → Nat) (avg : Nat → Nat → α) (thd inc : α) (i : Nat) :
    ((lrt_correction labels avg thd inc).1 i =
      if thd < avg i (bestOther avg i (labels i)) - avg i (labels i) then
        bestOther avg i (labels i)
      else labels i) ∧
    ((lrt_correction labels avg thd inc).1 i = labels i ∨
      (lrt_correction labels avg thd inc).1 i = bestOther avg i (labels i)) ∧
    (bestOther avg i (labels i) ≠ labels i ∧
      bestOther avg i (labels i) < numClass) ∧
    (∀ c, c < numClass → c ≠ labels i →
      avg i c ≤ avg i (bestOther avg i (labels i))) ∧
    (∀ (labels' : Nat → Nat) (avg' : Nat → Nat → α),
      labels' i = labels i → (∀ c, avg' i c = avg i c) →
      (lrt_correction labels' avg' thd inc).1 i
        = (lrt_correction labels avg thd inc).1 i) := by
  have hmem : bestOther avg i (labels i) ∈ otherClasses (labels i) :=
    argmaxList_mem (fun c => avg i c) (otherClasses (labels i))
      (otherClasses_ne_nil (labels i))
  have hprop := (mem_otherClasses (labels i) (bestOther avg i (labels i))).mp hmem
  refine ⟨rfl, ?_, ⟨hprop.2, hprop.1⟩, ?_, ?_⟩
  · by_cases hc : thd < avg i (bestOther avg i (labels i)) - avg i (labels i)
    · exact Or.inr (if_pos hc)
    · exact Or.inl (if_neg hc)
  · intro c hc hca
    exact argmaxList_ge (fun x => avg i x) (otherClasses (labels i)) c
      ((mem_otherClasses (labels i) c).mpr ⟨hc, hca⟩)
  · intro labels' avg' hl hrow
    have hfun : (fun c => avg' i c) = (fun c => avg i c) := funext hrow
    have hbo : bestOther avg' i (labels i) = bestOther avg i (labels i) := by
      rw [bestOther, bestOther, hfun]
    simp only [lrt_correction, hl, hbo, hrow]

/-- Labels of the spec section 8 scenario: one example, assigned class 0. -/
def labelsScenario : Nat → Nat := fun _ => 0

/-- Averaged probabilities of the spec section 8 scenario:
`avg_probs = [[0.2, 0.75, 0.05]]` padded with zeros. -/
def avgScenario : Nat → Nat → ℚ := fun _ c =>
  if c = 0 then 1/5 else if c = 1 then 3/4 else if c = 2 then 1/20 else 0

/-- Witness for C5, the spec section 8 scenario: with threshold 0.3 the
margin 0.55 exceeds the threshold and example 0 is relabeled to class 1
(the `best_other` of its row), as the theorem's first component evaluates. -/
theorem lrt_per_example_rule_witness :
    (lrt_correction labelsScenario avgScenario ((3 : ℚ)/10) (1/10)).1 0 = 1 := by
  have h := (lrt_per_example_rule labelsScenario avgScenario
    ((3 : ℚ)/10) ((1 : ℚ)/10) 0).1
  rw [h]
  have hoc : otherClasses (labelsScenario 0) = [1, 2, 3, 4, 5, 6, 7, 8, 9] := by
    decide
  simp only [bestOther, hoc, argmaxList, List.foldl]
  norm_num [avgScenario, labelsScenario]

/-- Modelled from the spec: the dataset collaborator `animal_dataset.Animal10`
(imported at line 17 of src/animal/train.py but not under `src/`).  Spec
section 3 gives the dataset a mutable label array, overwritten in place by
the correction engine's output; spec section 6 additionally requires an
accessor for the original (pre-any-correction) label array, "needed because
4.4 always re-evaluates against original labels, not previously-corrected
ones".  `origTargets` is the original assignment and `labels` the mutable
working array used for training. -/
structure Animal10 where
  origTargets : Nat → Nat
  labels : Nat → Nat

/-- Modelled from the spec: the `trainset.targets` accessor read at line 140
of src/animal/train.py — per spec section 6 the accessor for the original
(pre-any-correction) label array, the `original_labels` input of the
engine. -/
def Animal10.targets (d : Animal10) : Nat → Nat :=
  d.origTargets

/-- Modelled from the spec: `trainset.update_corrupted_label(y_corrected)`
(line 141) — the driver's single authoritative overwrite of the dataset's
mutable label array with the engine's revised labels (spec sections 3, 4.5
and 9). -/
def Animal10.update_corrupted_label (d : Animal10) (y : Nat → Nat) : Animal10 :=
  { d with labels := y }

/-- Per-epoch external data of a run: the shuffled training batches produced
by the loader and the validation accuracy computed at lines 112-124 (both
are outputs of the out-of-scope model/loader collaborators). -/
structure Env where
  batches : Nat → List Batch
  acc : Nat → ℝ

/-- Mutable state of the training loop driver across epochs: the prediction
history buffer (line 79), the validation ledger (line 81), the dataset, the
current threshold (line 41), and a ghost counter of performed correction
invocations. -/
structure DriverState where
  output_record : Nat → Nat → Nat → ℝ
  val_record : Nat → ℝ
  trainset : Animal10
  thd : ℝ
  ncorr : Nat

/-- Initial threshold (`current_thd: float = 0.3`, line 41). -/
noncomputable def thdInit : ℝ := 3/10

/-- Threshold increment (`thd_increment: float = 0.1`, line 42). -/
noncomputable def thdIncrement : ℝ := 1/10

/-- Selected-epoch average (line 139: `output_record[ind].mean(0)` with
`ind = np.argsort(val_record)[-10:]`): entry `(i, c)` is the sum over the
selected slots of the buffer entries, divided by the number of selected
slots. -/
noncomputable def avgSelected (buf : Nat → Nat → Nat → ℝ) (vr : Nat → ℝ) :
    Nat → Nat → ℝ :=
  fun i c => ((topK vr numSelected).map (fun sl => buf sl i c)).sum /
    ((topK vr numSelected).length : ℝ)

/-- One iteration of the epoch loop (lines 87-143): record the epoch's
training softmax outputs into buffer row `e mod 30` and its validation
accuracy into ledger slot `e mod 30`; from the warm-up epoch on, select the
top-10 ledger slots, average the corresponding buffer rows, run the
correction engine on the dataset's original-label accessor, and apply its
revised labels and threshold (lines 138-141). -/
noncomputable def step (env : Env) (e : Nat) (s : DriverState) : DriverState :=
  if warmupEpoch ≤ e then
    { output_record := trainEpoch s.output_record e (env.batches e),
      val_record := recordAcc s.val_record e (env.acc e),
      trainset := s.trainset.update_corrupted_label
        (lrt_correction (Animal10.targets s.trainset)
          (avgSelected (trainEpoch s.output_record e (env.batches e))
            (recordAcc s.val_record e (env.acc e)))
          s.thd thdIncrement).1,
      thd := (lrt_correction (Animal10.targets s.trainset)
        (avgSelected (trainEpoch s.output_record e (env.batches e))
          (recordAcc s.val_record e (env.acc e)))
        s.thd thdIncrement).2,
      ncorr := s.ncorr + 1 }
  else
    { output_record := trainEpoch s.output_record e (env.batches e),
      val_record := recordAcc s.val_record e (env.acc e),
      trainset := s.trainset,
      thd := s.thd,
      ncorr := s.ncorr }

/-- State before epoch 0: zero-filled buffer and ledger (lines 79 and 81),
the dataset as loaded, and the initial threshold. -/
noncomputable def initialState (ds : Animal10) : DriverState :=
  { output_record := bufZero, val_record := vrZero, trainset := ds,
    thd := thdInit, ncorr := 0 }

/-- State after the first `n` epochs of the loop at line 87. -/
noncomputable def run (env : Env) (ds : Animal10) : Nat → DriverState
  | 0 => initialState ds
  | e + 1 => step env e (run env ds e)

/-- The `avg_probs` matrix passed to the engine by the invocation at epoch
`e` (lines 132 and 139, evaluated on the state after epoch `e`'s training
and validation recording). -/
noncomputable def invocationAvg (env : Env) (ds : Animal10) (e : Nat) :
    Nat → Nat → ℝ :=
  avgSelected (trainEpoch (run env ds e).output_record e (env.batches e))
    (recordAcc (run env ds e).val_record e (env.acc e))

/-- The label array passed to the engine by the invocation at epoch `e`
(line 140: `np.array(trainset.targets).copy()`). -/
noncomputable def invocationLabels (env : Env) (ds : Animal10) (e : Nat) :
    Nat → Nat :=
  Animal10.targets (run env ds e).trainset

theorem run_succ (env : Env) (ds : Animal10) (e : Nat) :
    run env ds (e + 1) = step env e (run env ds e) := rfl

theorem step_val_record (env : Env) (e : Nat) (s : DriverState) :
    (step env e s).val_record = recordAcc s.val_record e (env.acc e) := by
  unfold step
  split <;> rfl

theorem step_output_record (env : Env) (e : Nat) (s : DriverState) :
    (step env e s).output_record = trainEpoch s.output_record e (env.batches e) := by
  unfold step
  split <;> rfl

theorem step_origTargets (env : Env) (e : Nat) (s : DriverState) :
    (step env e s).trainset.origTargets = s.trainset.origTargets := by
  unfold step
  split <;> rfl

theorem step_trainset_of_lt (env : Env) (e : Nat) (s : DriverState)
    (h : e < warmupEpoch) : (step env e s).trainset = s.trainset := by
  unfold step
  rw [if_neg (Nat.not_le.mpr h)]

theorem step_thd_of_lt (env : Env) (e : Nat) (s : DriverState)
    (h : e < warmupEpoch) : (step env e s).thd = s.thd := by
  unfold step
  rw [if_neg (Nat.not_le.mpr h)]

theorem step_ncorr_of_lt (env : Env) (e : Nat) (s : DriverState)
    (h : e < warmupEpoch) : (step env e s).ncorr = s.ncorr := by
  unfold step
  rw [if_neg (Nat.not_le.mpr h)]

theorem step_trainset_of_ge (env : Env) (e : Nat) (s : DriverState)
    (h : warmupEpoch ≤ e) :
    (step env e s).trainset = s.trainset.update_corrupted_label
      (lrt_correction (Animal10.targets s.trainset)
        (avgSelected (trainEpoch s.output_record e (env.batches e))
          (recordAcc s.val_record e (env.acc e)))
        s.thd thdIncrement).1 := by
  unfold step
  rw [if_pos h]

theorem step_thd_of_ge (env : Env) (e : Nat) (s : DriverState)
    (h : warmupEpoch ≤ e) :
    (step env e s).thd = min (s.thd + thdIncrement) 1 := by
  unfold step
  rw [if_pos h]
  rfl

theorem step_ncorr_of_ge (env : Env) (e : Nat) (s : DriverState)
    (h : warmupEpoch ≤ e) : (step env e s).ncorr = s.ncorr + 1 := by
  unfold step
  rw [if_pos h]

theorem run_origTargets (env : Env) (ds : Animal10) (e : Nat) :
    (run env ds e).trainset.origTargets = ds.origTargets := by
  induction e with
  | zero => rfl
  | succ e ih => rw [run_succ, step_origTargets, ih]

/-- C1.  At every epoch — in particular at every correction invocation
(epoch `>= 40`) — the label array built at line 140 and passed to the
engine as `original_labels` is the dataset's original (pre-any-correction)
label assignment: the `targets` accessor still returns the initial
assignment after any number of epochs, because the overwrites of line 141
only ever touch the dataset's working label array, never the original
one. -/
theorem original_labels_passed (env : Env) (ds : Animal10) (e : Nat) :
    invocationLabels env ds e = ds.origTargets ∧
    (run env ds e).trainset.origTargets = ds.origTargets :=
  ⟨by rw [invocationLabels, Animal10.targets, run_origTargets],
   run_origTargets env ds e⟩

theorem run_thd_le_one (env : Env) (ds : Animal10) (e : Nat) :
    (run env ds e).thd ≤ 1 := by
  induction e with
  | zero =>
    show thdInit ≤ 1
    rw [thdInit]
    norm_num
  | succ e ih =>
    rw [run_succ]
    by_cases h : warmupEpoch ≤ e
    · rw [step_thd_of_ge env e _ h]
      exact min_le_right _ 1
    · rw [step_thd_of_lt env e _ (Nat.not_le.mp h)]
      exact ih

/-- C4.  Across the run the threshold starts at 0.3, never exceeds 1.0, and
is non-decreasing from epoch to epoch; each correction invocation (epoch
`>= 40`) replaces it by exactly `min(current + 0.1, 1.0)` (the modelled
engine's threshold update, spec section 4.4), and epochs before the warm-up
leave it unchanged; the increment 0.1 is positive. -/
theorem threshold_monotone_capped (env : Env) (ds : Animal10) (e : Nat) :
    (run env ds e).thd ≤ 1 ∧
    (run env ds e).thd ≤ (run env ds (e + 1)).thd ∧
    (warmupEpoch ≤ e →
      (run env ds (e + 1)).thd = min ((run env ds e).thd + thdIncrement) 1) ∧
    (e < warmupEpoch → (run env ds (e + 1)).thd = (run env ds e).thd) ∧
    (run env ds 0).thd = 3/10 ∧ thdIncrement = 1/10 ∧ (0 : ℝ) < thdIncrement := by
  refine ⟨run_thd_le_one env ds e, ?_, ?_, ?_, rfl, rfl, by rw [thdIncrement]; norm_num⟩
  · rw [run_succ]
    by_cases h : warmupEpoch ≤ e
    · rw [step_thd_of_ge env e _ h]
      refine le_min ?_ (run_thd_le_one env ds e)
      have : (0 : ℝ) ≤ thdIncrement := by rw [thdIncrement]; norm_num
      linarith
    · rw [step_thd_of_lt env e _ (Nat.not_le.mp h)]
  · intro h
    rw [run_succ, step_thd_of_ge env e _ h]
  · intro h
    rw [run_succ, step_thd_of_lt env e _ h]

/-- Environment with empty epochs and zero accuracies, for witnesses. -/
def envZero : Env :=
  ⟨fun _ => [], fun _ => 0⟩

/-- Dataset with all labels zero, for witnesses. -/
def dsZero : Animal10 :=
  ⟨fun _ => 0, fun _ => 0⟩

/-- Witness for C4: at the concrete run over `envZero` the invocation at
epoch 40 satisfies the warm-up hypothesis and updates the threshold to
`min(threshold + 0.1, 1.0)`. -/
theorem threshold_monotone_capped_witness :
    warmupEpoch ≤ 40 ∧
    (run envZero dsZero 41).thd = min ((run envZero dsZero 40).thd + thdIncrement) 1 :=
  ⟨by decide, (threshold_monotone_capped envZero dsZero 40).2.2.1 (by decide)⟩

theorem run_labels_of_le (env : Env) (ds : Animal10) :
    ∀ e, e ≤ warmupEpoch → (run env ds e).trainset.labels = ds.labels := by
  intro e
  induction e with
  | zero => intro _; rfl
  | succ e ih =>
    intro h
    have he : e < warmupEpoch := Nat.lt_of_succ_le h
    rw [run_succ, step_trainset_of_lt env e _ he, ih (Nat.le_of_lt he)]

theorem run_ncorr (env : Env) (ds : Animal10) :
    ∀ e, (run env ds e).ncorr = e - warmupEpoch := by
  intro e
  induction e with
  | zero => rfl
  | succ e ih =>
    rw [run_succ]
    by_cases h : warmupEpoch ≤ e
    · rw [step_ncorr_of_ge env e _ h, ih]
      omega
    · rw [step_ncorr_of_lt env e _ (Nat.not_le.mp h), ih]
      omega

/-- C7.  The dataset's working label array is never mutated before the
warm-up epoch 40: after any epoch `e < 40` it still equals the loaded
assignment.  From epoch 40 on, every epoch performs exactly one correction
invocation (the ghost invocation counter after `n` epochs is `n - 40`), and
the epoch's final label array is exactly the revised labels the engine
returned for the selection/average computed in that epoch — the single
overwrite of line 141, which then stands for all subsequent epochs until
the next invocation. -/
theorem correction_schedule (env : Env) (ds : Animal10) :
    ((run env ds 0).trainset.labels = ds.labels) ∧
    (∀ e, e < warmupEpoch → (run env ds (e + 1)).trainset.labels = ds.labels) ∧
    (∀ n, (run env ds n).ncorr = n - warmupEpoch) ∧
    (∀ e, warmupEpoch ≤ e → (run env ds (e + 1)).trainset.labels =
      (lrt_correction (invocationLabels env ds e) (invocationAvg env ds e)
        (run env ds e).thd thdIncrement).1) := by
  refine ⟨rfl, ?_, run_ncorr env ds, ?_⟩
  · intro e he
    exact run_labels_of_le env ds (e + 1) (Nat.succ_le_of_lt he)
  · intro e he
    rw [run_succ, step_trainset_of_ge env e _ he]
    rfl

/-- Witness for C7: on the concrete run over `envZero`, epoch 39 (below the
warm-up) leaves the labels as loaded, the counter after 45 epochs is 5, and
epoch 40 applies the engine's output. -/
theorem correction_schedule_witness :
    (run envZero dsZero 40).trainset.labels = dsZero.labels ∧
    (run envZero dsZero 45).ncorr = 5 ∧
    (run envZero dsZero 41).trainset.labels =
      (lrt_correction (invocationLabels envZero dsZero 40)
        (invocationAvg envZero dsZero 40) (run envZero dsZero 40).thd
        thdIncrement).1 := by
  refine ⟨(correction_schedule envZero dsZero).2.1 39 (by decide), ?_,
    (correction_schedule envZero dsZero).2.2.2 40 (by decide)⟩
  have h := (correction_schedule envZero dsZero).2.2.1 45
  simpa using h

/-- C8.  At every epoch — in particular at every correction invocation —
the `avg_probs` matrix passed to the engine (line 139:
`output_record[ind].mean(0)` with `ind = np.argsort(val_record)[-10:]`,
line 132) is, for every example and class, the sum over the 10 selected
ledger slots (distinct, all within the 30-slot buffer) of the recorded
buffer entries, divided by 10 — the arithmetic mean over exactly the
`K = 10` selected epochs' recorded probability rows, recomputed from the
current buffer and ledger. -/
theorem invocation_avg_is_mean_of_ten (env : Env) (ds : Animal10) (e : Nat) :
    (topK (recordAcc (run env ds e).val_record e (env.acc e)) numSelected).length
      = numSelected ∧
    (topK (recordAcc (run env ds e).val_record e (env.acc e)) numSelected).Nodup ∧
    (∀ j ∈ topK (recordAcc (run env ds e).val_record e (env.acc e)) numSelected,
      j < bufferDepth) ∧
    (∀ i c, invocationAvg env ds e i c =
      ((topK (recordAcc (run env ds e).val_record e (env.acc e)) numSelected).map
        (fun sl => trainEpoch (run env ds e).output_record e (env.batches e) sl i c)).sum
        / (10 : ℝ)) := by
  have hk : numSelected ≤ bufferDepth := by decide
  refine ⟨topK_length _ numSelected hk, topK_nodup _ numSelected,
    fun j hj => topK_mem_lt _ numSelected j hj, ?_⟩
  intro i c
  rw [invocationAvg, avgSelected]
  rw [topK_length _ numSelected hk]
  norm_num [numSelected]

/-- Witness for C8: on the concrete run over `envZero` the selection feeding
the invocation at epoch 40 has exactly 10 slots. -/
theorem invocation_avg_is_mean_of_ten_witness :
    (topK (recordAcc (run envZero dsZero 40).val_record 40 (envZero.acc 40))
      numSelected).length = numSelected :=
  (invocation_avg_is_mean_of_ten envZero dsZero 40).1

theorem run_val_record_succ (env : Env) (ds : Animal10) (e : Nat) :
    (run env ds (e + 1)).val_record = recordAcc (run env ds e).val_record e (env.acc e) := by
  rw [run_succ, step_val_record]

theorem ledger_written (env : Env) (ds : Animal10) :
    ∀ e j, j < bufferDepth → j ≤ e →
      ∃ ew, ew ≤ e ∧ ew % bufferDepth = j ∧
        (run env ds (e + 1)).val_record j = env.acc ew := by
  intro e
  induction e with
  | zero =>
    intro j hj hje
    have hj0 : j = 0 := Nat.le_zero.mp hje
    subst hj0
    refine ⟨0, le_refl 0, rfl, ?_⟩
    rw [run_val_record_succ, recordAcc,
      if_pos (show (0 : Nat) = 0 % bufferDepth from by decide)]
  | succ e ih =>
    intro j hj hje
    rw [run_val_record_succ]
    by_cases hslot : j = (e + 1) % bufferDepth
    · refine ⟨e + 1, le_refl _, hslot.symm, ?_⟩
      rw [recordAcc, if_pos hslot]
    · have hje' : j ≤ e := by
        rcases Nat.lt_or_ge j (e + 1) with h | h
        · exact Nat.lt_succ_iff.mp h
        · exfalso
          have hj1 : j = e + 1 := Nat.le_antisymm hje h
          apply hslot
          rw [hj1, Nat.mod_eq_of_lt (hj1 ▸ hj)]
      rcases ih j hj hje' with ⟨ew, hew, hmod, hval⟩
      refine ⟨ew, Nat.le_succ_of_le hew, hmod, ?_⟩
      rw [recordAcc, if_neg hslot]
      exact hval

/-- C10.  At every correction invocation (epoch `e >= 40`), every one of the
30 ledger slots read by the top-10 selection was written by some epoch
`ew <= e` of the current run (the warm-up epoch 40 exceeds the buffer depth
30, so every residue `j < 30` has already occurred as `ew mod 30`): the
slot's content is the recorded validation accuracy of such an epoch, not
the zero initialization; in particular every slot the selection returns is
a written slot. -/
theorem ledger_fully_written_at_invocation (env : Env) (ds : Animal10)
    (e : Nat) (he : warmupEpoch ≤ e) :
    (∀ j, j < bufferDepth →
      ∃ ew, ew ≤ e ∧ ew % bufferDepth = j ∧
        recordAcc (run env ds e).val_record e (env.acc e) j = env.acc ew) ∧
    (∀ j ∈ topK (recordAcc (run env ds e).val_record e (env.acc e)) numSelected,
      j < bufferDepth ∧
      ∃ ew, ew ≤ e ∧ ew % bufferDepth = j ∧
        recordAcc (run env ds e).val_record e (env.acc e) j = env.acc ew) := by
  have hmain : ∀ j, j < bufferDepth →
      ∃ ew, ew ≤ e ∧ ew % bufferDepth = j ∧
        recordAcc (run env ds e).val_record e (env.acc e) j = env.acc ew := by
    intro j hj
    have hje : j ≤ e := by
      have h1 : bufferDepth = 30 := rfl
      have h2 : warmupEpoch = 40 := rfl
      omega
    rcases Nat.eq_zero_or_pos e with he0 | hepos
    · exfalso
      have h2 : warmupEpoch = 40 := rfl
      omega
    · obtain ⟨d, hd⟩ : ∃ d, e = d + 1 := ⟨e - 1, by omega⟩
      subst hd
      by_cases hslot : j = (d + 1) % bufferDepth
      · refine ⟨d + 1, le_refl _, hslot.symm, ?_⟩
        rw [recordAcc, if_pos hslot]
      · have hje' : j ≤ d := by
          rcases Nat.lt_or_ge j (d + 1) with h | h
          · exact Nat.lt_succ_iff.mp h
          · exfalso
            have hj1 : j = d + 1 := Nat.le_antisymm hje h
            apply hslot
            rw [hj1, Nat.mod_eq_of_lt (hj1 ▸ hj)]
        rcases ledger_written env ds d j hj hje' with ⟨ew, hew, hmod, hval⟩
        refine ⟨ew, Nat.le_succ_of_le hew, hmod, ?_⟩
        rw [recordAcc, if_neg hslot]
        exact hval
  refine ⟨hmain, fun j hj => ?_⟩
  have hjlt : j < bufferDepth := topK_mem_lt _ numSelected j hj
  exact ⟨hjlt, hmain j hjlt⟩

/-- Witness for C10: on the concrete run over `envZero` the invocation at
epoch 40 finds ledger slot 5 written by a real epoch of the run. -/
theorem ledger_fully_written_at_invocation_witness :
    warmupEpoch ≤ 40 ∧
    ∃ ew, ew ≤ 40 ∧ ew % bufferDepth = 5 ∧
      recordAcc (run envZero dsZero 40).val_record 40 (envZero.acc 40) 5
        = envZero.acc ew :=
  ⟨by decide,
    (ledger_fully_written_at_invocation envZero dsZero 40 (by decide)).1 5 (by decide)⟩

/-- Modelled from the spec: the error discipline of a correction invocation
(spec section 7; `utils.lrt_correction` is not under `src/`).  The engine
runs on a read-only snapshot of the labels (line 140 passes a copy) and may
fail fast on malformed inputs; the driver applies its result only through
the single overwrite of line 141 after a successful return, so the result
of an invocation is either the full application of `revised_labels` and the
new threshold, or — when the engine raises — the state exactly as it was. -/
def applyCorrection {ε : Type} (s : DriverState)
    (r : Except ε ((Nat → Nat) × ℝ)) : DriverState :=
  match r with
  | Except.ok p =>
    { s with trainset := s.trainset.update_corrupted_label p.1, thd := p.2 }
  | Except.error _ => s

/-- C9.  A correction invocation is all-or-nothing for the dataset's label
array: when the engine fails, the whole driver state — in particular the
label array — is left exactly as it was (no revised label is applied,
because the only mutation is the driver's single overwrite after a
successful return); when the engine returns, the working label array is
replaced by `revised_labels` as a whole, the threshold by the returned
threshold, and nothing else of the state (original labels, buffer, ledger)
changes. -/
theorem correction_all_or_nothing {ε : Type} (s : DriverState)
    (r : Except ε ((Nat → Nat) × ℝ)) :
    (∀ m, r = Except.error m → applyCorrection s r = s) ∧
    (∀ p, r = Except.ok p →
      (applyCorrection s r).trainset.labels = p.1 ∧
      (applyCorrection s r).thd = p.2 ∧
      (applyCorrection s r).trainset.origTargets = s.trainset.origTargets ∧
      (applyCorrection s r).output_record = s.output_record ∧
      (applyCorrection s r).val_record = s.val_record) := by
  constructor
  · intro m hr
    rw [hr]
    rfl
  · intro p hr
    rw [hr]
    exact ⟨rfl, rfl, rfl, rfl, rfl⟩

/-- Concrete driver state for the C9 witness. -/
noncomputable def stateZero : DriverState :=
  initialState dsZero

/-- Witness for C9: a failing engine result leaves the concrete state
untouched. -/
theorem correction_all_or_nothing_witness :
    applyCorrection stateZero (Except.error ()) = stateZero :=
  (correction_all_or_nothing stateZero (Except.error ())).1 () rfl
